import Mathlib

/-!
Verification development for the VCP SDK (Value-Context Protocol).

Shallow embedding of the core pipeline modules of the repository:

* `src/python/src/vcp/canonicalize.py`  — content canonicalization and hashing
* `src/python/src/vcp/orchestrator.py`  — verification pipeline and replay cache
* `src/python/src/vcp/audit.py`         — audit `checks_passed` derivation
* `src/python/src/vcp/hooks/registry.py`— hook registry and chain merging
* `src/python/src/vcp/hooks/executor.py`— hook chain execution order
* `src/python/src/vcp/semantics/composer.py` — constitution composition
* `src/python/src/vcp/adaptation/state.py`   — transition severity classification

Python strings are modelled as `List Char` (sequences of Unicode scalar
values).  UTF-8 encoding is injective, so byte equality of encoded output
coincides with equality of the modelled character sequence.  `datetime`
values are modelled as `Nat` instants with the usual order.  Functions the
pipeline treats as opaque (NFC normalization, SHA-256, Ed25519 signature
verification, `fnmatch` globbing, JSON serialization length) are passed in
as explicit parameters: the pipeline only ever consumes their results.
-/

namespace VCP

/-! ## Canonicalizer (`canonicalize.py`, `canonicalize_content`)

`canonicalize_content` performs, in order: NFC normalization,
`replace("\r\n","\n").replace("\r","\n")`, per-line strip of trailing
space/tab, removal of trailing empty lines plus exactly one final LF,
rejection of C0/C1 controls other than LF and TAB, and rejection of a fixed
forbidden-character set.  Errors are raised (Python `ValueError`), modelled
as `Except.error`. -/

/-- One structured canonicalization error (Python raises `ValueError`). -/
inductive CanonErr
  | illegalControl (pos : Nat) (c : Char)
  | forbiddenChar (pos : Nat) (c : Char)
deriving DecidableEq, Repr

/-- `text.replace("\r\n", "\n")`: left-to-right, non-overlapping. -/
def replaceCRLF : List Char → List Char
  | [] => []
  | [c] => [c]
  | c :: d :: rest =>
    if c = '\r' ∧ d = '\n' then '\n' :: replaceCRLF rest
    else c :: replaceCRLF (d :: rest)

/-- `text.replace("\r", "\n")` (single-character replace). -/
def replaceCRonly (s : List Char) : List Char :=
  s.map (fun c => if c = '\r' then '\n' else c)

/-- Step 2 of `canonicalize_content`. -/
def pyNewlines (s : List Char) : List Char :=
  replaceCRonly (replaceCRLF s)

/-- Python `text.split("\n")`: always returns at least one (possibly empty)
line; `"".split("\n") == [""]`. -/
def splitLines : List Char → List (List Char)
  | [] => [[]]
  | c :: rest =>
    if c = '\n' then [] :: splitLines rest
    else
      match splitLines rest with
      | [] => [[c]]
      | l :: ls => (c :: l) :: ls

def isSpaceTab (c : Char) : Bool := c = ' ' || c = '\t'

/-- Python `line.rstrip(" \t")`. -/
def rstripST (l : List Char) : List Char :=
  (l.reverse.dropWhile isSpaceTab).reverse

/-- `while lines and lines[-1] == "": lines.pop()`. -/
def dropTrailingEmpty (ls : List (List Char)) : List (List Char) :=
  (ls.reverse.dropWhile List.isEmpty).reverse

/-- `"\n".join(lines)`. -/
def joinSep : List (List Char) → List Char
  | [] => []
  | [l] => l
  | l :: ls => l ++ '\n' :: joinSep ls

/-- `"\n".join(lines) + "\n"`. -/
def joinLines (ls : List (List Char)) : List Char :=
  joinSep ls ++ ['\n']

/-- Steps 3–4 of `canonicalize_content` applied after newline normalization. -/
def canonicalShape (s : List Char) : List Char :=
  joinLines (dropTrailingEmpty ((splitLines s).map rstripST))

/-- Unicode general category Cc (`unicodedata.category(char) == "Cc"`):
U+0000–U+001F and U+007F–U+009F. -/
def isCc (c : Char) : Bool :=
  c.toNat ≤ 0x1f || (0x7f ≤ c.toNat && c.toNat ≤ 0x9f)

def isIllegalControl (c : Char) : Bool :=
  isCc c && !(c = '\n' || c = '\t')

/-- The fixed `FORBIDDEN` set of `canonicalize_content`. -/
def forbiddenChars : List Char :=
  ['‪', '‫', '‬', '‭', '‮',
   '⁦', '⁧', '⁨', '⁩',
   '​', '‌', '‍', '﻿']

def isForbidden (c : Char) : Bool := forbiddenChars.contains c

/-- First position (and character) violating `p`, like the
`for i, char in enumerate(text)` loops that raise at the first offender. -/
def findBad (p : Char → Bool) : List Char → Option (Nat × Char)
  | [] => none
  | c :: rest =>
    if p c then some (0, c)
    else (findBad p rest).map (fun ic => (ic.1 + 1, ic.2))

/-- The canonical text built by steps 1–4 of `canonicalize_content`
(before the character checks of steps 5–6). -/
def canonicalText (nfc : List Char → List Char) (text : List Char) : List Char :=
  canonicalShape (pyNewlines (nfc text))

/-- `canonicalize_content` from `canonicalize.py`, parameterized by the NFC
normalization function (`unicodedata.normalize("NFC", ·)`), which the code
treats as opaque. -/
def canonicalize_content (nfc : List Char → List Char) (text : List Char) :
    Except CanonErr (List Char) :=
  match findBad isIllegalControl (canonicalText nfc text) with
  | some pc => .error (.illegalControl pc.1 pc.2)
  | none =>
    match findBad isForbidden (canonicalText nfc text) with
    | some pc => .error (.forbiddenChar pc.1 pc.2)
    | none => .ok (canonicalText nfc text)

/-- `compute_content_hash`: `"sha256:" + sha256(canonical).hexdigest()`,
with the digest function passed in as a parameter. -/
def compute_content_hash (nfc : List Char → List Char)
    (sha256hex : List Char → String) (content : List Char) :
    Except CanonErr String :=
  (canonicalize_content nfc content).map
    (fun canonical => "sha256:" ++ sha256hex canonical)

example : canonicalize_content id "a \r\n\nb\t\n\n\n".toList = .ok "a\n\nb\n".toList := rfl

example : canonicalize_content id ['h', 'i', '‮', '\n'] =
    .error (.forbiddenChar 2 '‮') := rfl

example : canonicalize_content id ['h', '\x00'] =
    .error (.illegalControl 1 '\x00') := rfl

/-! ### Idempotence of the canonical shape -/

theorem dropWhile_idem {α} (p : α → Bool) (l : List α) :
    (l.dropWhile p).dropWhile p = l.dropWhile p := by
  induction l with
  | nil => rfl
  | cons a l ih => cases hpa : p a <;> simp [List.dropWhile_cons, hpa, ih]

theorem mem_dropWhile {α} (p : α → Bool) (l : List α) :
    ∀ a ∈ l.dropWhile p, a ∈ l := by
  induction l with
  | nil => intro a h; simp at h
  | cons b l ih =>
    intro a h
    cases hpb : p b <;> rw [List.dropWhile_cons, hpb] at h
    · simpa using h
    · exact List.mem_cons_of_mem _ (ih a h)

theorem map_fixed {α} (f : α → α) (l : List α) (h : ∀ a ∈ l, f a = a) :
    l.map f = l := by
  induction l with
  | nil => rfl
  | cons a l ih =>
    simp [h a (List.mem_cons_self a l),
      ih (fun b hb => h b (List.mem_cons_of_mem a hb))]

theorem rstripST_idem (l : List Char) : rstripST (rstripST l) = rstripST l := by
  unfold rstripST
  rw [List.reverse_reverse, dropWhile_idem]

theorem rstripST_subset (l : List Char) : ∀ c ∈ rstripST l, c ∈ l := by
  intro c hc
  unfold rstripST at hc
  rw [List.mem_reverse] at hc
  have := mem_dropWhile _ _ _ hc
  rwa [List.mem_reverse] at this

theorem splitLines_ne_nil (s : List Char) : splitLines s ≠ [] := by
  cases s with
  | nil => simp [splitLines]
  | cons c rest =>
    simp only [splitLines]
    split
    · simp
    · split <;> simp

theorem splitLines_cons_nl (rest : List Char) :
    splitLines ('\n' :: rest) = [] :: splitLines rest := by
  simp [splitLines]

theorem splitLines_cons_ne (c : Char) (rest : List Char) (hc : c ≠ '\n')
    (m : List Char) (ms : List (List Char)) (hsp : splitLines rest = m :: ms) :
    splitLines (c :: rest) = (c :: m) :: ms := by
  simp [splitLines, hc, hsp]

theorem splitLines_exists_cons (rest : List Char) :
    ∃ m ms, splitLines rest = m :: ms := by
  cases hq : splitLines rest with
  | nil => exact absurd hq (splitLines_ne_nil rest)
  | cons m ms => exact ⟨m, ms, rfl⟩

theorem splitLines_no_newline (s : List Char) :
    ∀ l ∈ splitLines s, '\n' ∉ l := by
  induction s with
  | nil =>
    intro l hl
    simp only [splitLines, List.mem_singleton] at hl
    subst hl; simp
  | cons c rest ih =>
    intro l hl
    by_cases hc : c = '\n'
    · subst hc
      rw [splitLines_cons_nl, List.mem_cons] at hl
      rcases hl with rfl | hl
      · simp
      · exact ih l hl
    · obtain ⟨m, ms, hsp⟩ := splitLines_exists_cons rest
      rw [splitLines_cons_ne c rest hc m ms hsp, List.mem_cons] at hl
      rcases hl with rfl | hl
      · intro hmem
        rcases List.mem_cons.mp hmem with h1 | h2
        · exact hc h1.symm
        · exact ih m (hsp ▸ List.mem_cons_self m ms) h2
      · exact ih l (hsp ▸ List.mem_cons_of_mem m hl)

theorem splitLines_mem_subset (s : List Char) :
    ∀ l ∈ splitLines s, ∀ c ∈ l, c ∈ s := by
  induction s with
  | nil =>
    intro l hl
    simp only [splitLines, List.mem_singleton] at hl
    subst hl; simp
  | cons a rest ih =>
    intro l hl c hc
    by_cases ha : a = '\n'
    · subst ha
      rw [splitLines_cons_nl, List.mem_cons] at hl
      rcases hl with rfl | hl
      · simp at hc
      · exact List.mem_cons_of_mem _ (ih l hl c hc)
    · obtain ⟨m, ms, hsp⟩ := splitLines_exists_cons rest
      rw [splitLines_cons_ne a rest ha m ms hsp, List.mem_cons] at hl
      rcases hl with rfl | hl
      · rcases List.mem_cons.mp hc with rfl | h2
        · exact List.mem_cons_self c rest
        · exact List.mem_cons_of_mem _
            (ih m (hsp ▸ List.mem_cons_self m ms) c h2)
      · exact List.mem_cons_of_mem _
          (ih l (hsp ▸ List.mem_cons_of_mem m hl) c hc)

theorem splitLines_append (l r : List Char) (h : '\n' ∉ l) :
    splitLines (l ++ '\n' :: r) = l :: splitLines r := by
  induction l with
  | nil => simp [splitLines_cons_nl]
  | cons c cl ih =>
    have hc : c ≠ '\n' := fun hh => h (by subst hh; exact List.mem_cons_self _ _)
    obtain ⟨m, ms, hsp⟩ := splitLines_exists_cons (cl ++ '\n' :: r)
    rw [List.cons_append, splitLines_cons_ne c _ hc m ms hsp]
    rw [ih (fun hm => h (List.mem_cons_of_mem c hm))] at hsp
    rw [List.cons.injEq] at hsp
    rw [hsp.1, hsp.2]

theorem splitLines_joinLines (ls : List (List Char)) (hne : ls ≠ [])
    (h : ∀ l ∈ ls, '\n' ∉ l) :
    splitLines (joinLines ls) = ls ++ [[]] := by
  induction ls with
  | nil => exact absurd rfl hne
  | cons l ls ih =>
    cases ls with
    | nil =>
      show splitLines (l ++ '\n' :: []) = [l, []]
      rw [splitLines_append l [] (h l (List.mem_cons_self _ _))]
      rfl
    | cons l2 ls2 =>
      have hstep : joinLines (l :: l2 :: ls2) = l ++ '\n' :: joinLines (l2 :: ls2) := by
        simp [joinLines, joinSep]
      rw [hstep, splitLines_append l _ (h l (List.mem_cons_self _ _)),
        ih (by simp) (fun m hm => h m (List.mem_cons_of_mem l hm))]
      rfl

theorem mem_joinSep (ls : List (List Char)) :
    ∀ c ∈ joinSep ls, c = '\n' ∨ ∃ l ∈ ls, c ∈ l := by
  induction ls with
  | nil => intro c hc; simp [joinSep] at hc
  | cons l ls ih =>
    cases ls with
    | nil =>
      intro c hc
      exact Or.inr ⟨l, List.mem_cons_self _ _, hc⟩
    | cons l2 ls2 =>
      intro c hc
      simp only [joinSep, List.mem_append, List.mem_cons] at hc
      rcases hc with hc | hc | hc
      · exact Or.inr ⟨l, List.mem_cons_self _ _, hc⟩
      · exact Or.inl hc
      · rcases ih c hc with h1 | ⟨m, hm, hcm⟩
        · exact Or.inl h1
        · exact Or.inr ⟨m, List.mem_cons_of_mem l hm, hcm⟩

theorem dropTrailingEmpty_append_nil (ls : List (List Char)) :
    dropTrailingEmpty (ls ++ [[]]) = dropTrailingEmpty ls := by
  unfold dropTrailingEmpty
  rw [List.reverse_append]
  simp [List.dropWhile_cons]

theorem dropTrailingEmpty_idem (ls : List (List Char)) :
    dropTrailingEmpty (dropTrailingEmpty ls) = dropTrailingEmpty ls := by
  unfold dropTrailingEmpty
  rw [List.reverse_reverse, dropWhile_idem]

theorem mem_dropTrailingEmpty (ls : List (List Char)) :
    ∀ l ∈ dropTrailingEmpty ls, l ∈ ls := by
  intro l hl
  unfold dropTrailingEmpty at hl
  rw [List.mem_reverse] at hl
  have := mem_dropWhile _ _ _ hl
  rwa [List.mem_reverse] at this

theorem mem_canonicalShape (t : List Char) :
    ∀ c ∈ canonicalShape t, c = '\n' ∨ c ∈ t := by
  intro c hc
  unfold canonicalShape joinLines at hc
  rw [List.mem_append] at hc
  rcases hc with hc | hc
  · rcases mem_joinSep _ c hc with h1 | ⟨l, hl, hcl⟩
    · exact Or.inl h1
    · have hl2 := mem_dropTrailingEmpty _ l hl
      rw [List.mem_map] at hl2
      obtain ⟨m, hm, rfl⟩ := hl2
      exact Or.inr (splitLines_mem_subset t m hm c (rstripST_subset m c hcl))
  · simp only [List.mem_singleton] at hc
    exact Or.inl hc

theorem canonicalShape_fixed (t : List Char) :
    canonicalShape (canonicalShape t) = canonicalShape t := by
  have hfix : ∀ l ∈ dropTrailingEmpty ((splitLines t).map rstripST),
      rstripST l = l := by
    intro l hl
    have := mem_dropTrailingEmpty _ l hl
    rw [List.mem_map] at this
    obtain ⟨m, _, rfl⟩ := this
    exact rstripST_idem m
  have hnl : ∀ l ∈ dropTrailingEmpty ((splitLines t).map rstripST),
      '\n' ∉ l := by
    intro l hl hmem
    have hm := mem_dropTrailingEmpty _ l hl
    rw [List.mem_map] at hm
    obtain ⟨m, hm1, rfl⟩ := hm
    exact splitLines_no_newline t m hm1 (rstripST_subset m _ hmem)
  by_cases hne : dropTrailingEmpty ((splitLines t).map rstripST) = []
  · have h1 : canonicalShape t = ['\n'] := by
      unfold canonicalShape
      rw [hne]; rfl
    rw [h1]; rfl
  · conv_lhs => rw [canonicalShape]
    show joinLines (dropTrailingEmpty ((splitLines
      (joinLines (dropTrailingEmpty ((splitLines t).map rstripST)))).map rstripST)) = _
    rw [splitLines_joinLines _ hne hnl, List.map_append,
      map_fixed rstripST _ hfix]
    show joinLines (dropTrailingEmpty (_ ++ [[]])) = _
    rw [dropTrailingEmpty_append_nil, dropTrailingEmpty_idem]
    rfl

theorem pyNewlines_no_cr (s : List Char) : '\r' ∉ pyNewlines s := by
  intro h
  unfold pyNewlines replaceCRonly at h
  rw [List.mem_map] at h
  obtain ⟨a, _, ha⟩ := h
  by_cases h2 : a = '\r'
  · rw [if_pos h2] at ha
    exact absurd ha (by decide)
  · rw [if_neg h2] at ha
    exact h2 ha

theorem replaceCRLF_of_no_cr (s : List Char) (h : '\r' ∉ s) :
    replaceCRLF s = s := by
  induction s with
  | nil => rfl
  | cons c rest ih =>
    have hc : c ≠ '\r' := fun hh => h (by subst hh; exact List.mem_cons_self _ _)
    cases rest with
    | nil => rfl
    | cons d rest2 =>
      show replaceCRLF (c :: d :: rest2) = _
      rw [replaceCRLF, if_neg (fun hand => hc hand.1),
        ih (fun hm => h (List.mem_cons_of_mem c hm))]

theorem replaceCRonly_of_no_cr (s : List Char) (h : '\r' ∉ s) :
    replaceCRonly s = s := by
  unfold replaceCRonly
  exact map_fixed _ s (fun a ha => if_neg (fun (h2 : a = '\r') => h (h2 ▸ ha)))

theorem canonicalText_no_cr (nfc : List Char → List Char) (s : List Char) :
    '\r' ∉ canonicalText nfc s := by
  intro hc
  rcases mem_canonicalShape _ _ hc with h | h
  · exact absurd h (by decide)
  · exact pyNewlines_no_cr _ h

theorem canonicalText_fixed (nfc : List Char → List Char) (s : List Char)
    (hfix : nfc (canonicalText nfc s) = canonicalText nfc s) :
    canonicalText nfc (canonicalText nfc s) = canonicalText nfc s := by
  conv_lhs => rw [canonicalText, hfix]
  have hnocr := canonicalText_no_cr nfc s
  rw [pyNewlines, replaceCRLF_of_no_cr _ hnocr, replaceCRonly_of_no_cr _ hnocr]
  show canonicalShape (canonicalShape (pyNewlines (nfc s))) = _
  rw [canonicalShape_fixed]
  rfl

theorem canonicalize_ok_elim (nfc : List Char → List Char) (s out : List Char)
    (h : canonicalize_content nfc s = .ok out) :
    canonicalText nfc s = out ∧
      findBad isIllegalControl out = none ∧ findBad isForbidden out = none := by
  unfold canonicalize_content at h
  cases hc1 : findBad isIllegalControl (canonicalText nfc s) with
  | some pc => rw [hc1] at h; simp at h
  | none =>
    rw [hc1] at h
    cases hc2 : findBad isForbidden (canonicalText nfc s) with
    | some pc => rw [hc2] at h; simp at h
    | none =>
      rw [hc2] at h
      simp only [Except.ok.injEq] at h
      exact ⟨h, h ▸ hc1, h ▸ hc2⟩

/-- **C6.** `canonicalize_content` is idempotent after the first application:
if `canonicalize_content` succeeds on `s` with canonical output `out` —
under the (Unicode closure) fact that NFC normalization fixes the canonical
output, supplied as the hypothesis `hfix` — then running
`canonicalize_content` on (the UTF-8 decoding of) `out` succeeds and returns
`out` itself; and any two inputs whose canonical forms are byte-equal have
equal `compute_content_hash` strings. -/
theorem c6_canonicalize_idempotent_hash_deterministic
    (nfc : List Char → List Char) (sha256hex : List Char → String)
    (s s₂ out : List Char)
    (h : canonicalize_content nfc s = .ok out)
    (hfix : nfc out = out)
    (h₂ : canonicalize_content nfc s₂ = .ok out) :
    canonicalize_content nfc out = .ok out ∧
      compute_content_hash nfc sha256hex s = compute_content_hash nfc sha256hex s₂ := by
  obtain ⟨hout, hb1, hb2⟩ := canonicalize_ok_elim nfc s out h
  have hct : canonicalText nfc out = out := by
    have hstep := canonicalText_fixed nfc s (by rw [hout]; exact hfix)
    rw [hout] at hstep
    exact hstep
  constructor
  · unfold canonicalize_content
    rw [hct, hb1, hb2]
  · unfold compute_content_hash
    rw [h, h₂]

/-- Witness for C6 at a concrete input: `"a \n\n"` canonicalizes to `"a\n"`,
re-canonicalizing `"a\n"` is the identity, and `"a"` (same canonical form)
gets the same content hash. -/
theorem c6_witness :
    canonicalize_content id ['a', '\n'] = .ok ['a', '\n'] ∧
      compute_content_hash id (fun _ => "h") "a \n\n".toList =
        compute_content_hash id (fun _ => "h") "a".toList :=
  c6_canonicalize_idempotent_hash_deterministic id (fun _ => "h")
    "a \n\n".toList "a".toList ['a', '\n'] rfl rfl rfl

/-! ## Verification result codes (`types.py`, `VerificationResult`) -/

inductive VerificationResult
  | VALID
  | SIZE_EXCEEDED
  | INVALID_SCHEMA
  | UNTRUSTED_ISSUER
  | INVALID_SIGNATURE
  | UNTRUSTED_AUDITOR
  | INVALID_ATTESTATION
  | HASH_MISMATCH
  | NOT_YET_VALID
  | EXPIRED
  | FUTURE_TIMESTAMP
  | REPLAY_DETECTED
  | TOKEN_MISMATCH
  | BUDGET_EXCEEDED
  | SCOPE_MISMATCH
  | REVOKED
  | FETCH_FAILED
deriving DecidableEq, Repr

/-- The integer value of each enum member, exactly as in `types.py`. -/
def VerificationResult.value : VerificationResult → Nat
  | .VALID => 0
  | .SIZE_EXCEEDED => 1
  | .INVALID_SCHEMA => 2
  | .UNTRUSTED_ISSUER => 3
  | .INVALID_SIGNATURE => 4
  | .UNTRUSTED_AUDITOR => 5
  | .INVALID_ATTESTATION => 6
  | .HASH_MISMATCH => 7
  | .NOT_YET_VALID => 8
  | .EXPIRED => 9
  | .FUTURE_TIMESTAMP => 10
  | .REPLAY_DETECTED => 11
  | .TOKEN_MISMATCH => 12
  | .BUDGET_EXCEEDED => 13
  | .SCOPE_MISMATCH => 14
  | .REVOKED => 15
  | .FETCH_FAILED => 16

/-! ## Trust store (`trust.py`)

`datetime` values are modelled as `Nat` seconds. -/

structure TrustAnchor where
  id : String
  key_id : String
  algorithm : String
  public_key : String
  anchor_type : String
  valid_from : Nat
  valid_until : Nat
  state : String
deriving DecidableEq, Repr

/-- `TrustAnchor.is_valid`: usable iff state is active/rotating and the
instant lies in the validity window. -/
def TrustAnchor.is_valid (a : TrustAnchor) (at_time : Nat) : Bool :=
  (a.state == "active" || a.state == "rotating") &&
    (a.valid_from ≤ at_time && at_time ≤ a.valid_until)

/-- `TrustConfig`: issuer/auditor anchors keyed by entity id (Python dicts
modelled as association lists). -/
structure TrustConfig where
  issuers : List (String × List TrustAnchor)
  auditors : List (String × List TrustAnchor)
deriving Repr

def lookupAnchors (m : List (String × List TrustAnchor)) (k : String) :
    List TrustAnchor :=
  match m.find? (fun p => p.1 == k) with
  | some p => p.2
  | none => []

/-- `TrustConfig.get_issuer_key`: first anchor matching the id (and the
key id, unless the key id is falsy, i.e. empty) that is valid now.  An
anchor with a matching key id that is not valid does not stop the scan. -/
def TrustConfig.get_issuer_key (cfg : TrustConfig) (issuer_id key_id : String)
    (now : Nat) : Option TrustAnchor :=
  (lookupAnchors cfg.issuers issuer_id).find?
    (fun a => (key_id == "" || a.key_id == key_id) && a.is_valid now)

/-- `TrustConfig.get_auditor_key` (same scan over the auditor map). -/
def TrustConfig.get_auditor_key (cfg : TrustConfig) (auditor_id key_id : String)
    (now : Nat) : Option TrustAnchor :=
  (lookupAnchors cfg.auditors auditor_id).find?
    (fun a => (key_id == "" || a.key_id == key_id) && a.is_valid now)

/-! ## Replay cache (`orchestrator.py`, `ReplayCache`)

The Python `dict[str, datetime]` preserves insertion order; it is modelled
as an insertion-ordered association list. -/

structure ReplayCache where
  seen : List (String × Nat)
  max_entries : Nat := 100000
deriving DecidableEq, Repr

/-- `ReplayCache._cleanup`: drop entries whose `exp < now`. -/
def ReplayCache.cleanup (now : Nat) (c : ReplayCache) : ReplayCache :=
  { c with seen := c.seen.filter (fun p => !(p.2 < now)) }

/-- `ReplayCache.is_seen`: cleanup, then membership; returns the membership
answer together with the mutated cache. -/
def ReplayCache.is_seen (now : Nat) (jti : String) (c : ReplayCache) :
    Bool × ReplayCache :=
  let c2 := c.cleanup now
  (c2.seen.any (fun p => p.1 == jti), c2)

/-- `ReplayCache.record`: Python dict assignment `self.seen[jti] = exp` —
update in place when the key exists, append otherwise.  (Note: the method
never consults `max_entries`.) -/
def ReplayCache.record (jti : String) (e : Nat) (c : ReplayCache) :
    ReplayCache :=
  if c.seen.any (fun p => p.1 == jti) then
    { c with seen := c.seen.map (fun p => if p.1 == jti then (jti, e) else p) }
  else
    { c with seen := c.seen ++ [(jti, e)] }

/-- **C3 (counter to the claim).** `ReplayCache.record` performs no eviction
at all: recording a fresh `jti` into a cache that already holds
`max_entries` entries leaves `max_entries + 1` entries, exceeding the
declared capacity bound.  The `max_entries` field is declared (default
100,000) but never consulted by `record`/`is_seen`. -/
theorem c3_replay_cache_no_capacity_bound (c : ReplayCache) (jti : String)
    (e : Nat)
    (hfull : c.seen.length = c.max_entries)
    (hfresh : c.seen.any (fun p => p.1 == jti) = false) :
    (ReplayCache.record jti e c).seen.length > c.max_entries := by
  unfold ReplayCache.record
  rw [hfresh]
  simp [hfull]

/-- Witness for C3: a cache at its capacity of 2 grows to 3 entries. -/
theorem c3_witness :
    ((⟨[("a", 100), ("b", 100)], 2⟩ : ReplayCache).seen.length = 2 ∧
      (⟨[("a", 100), ("b", 100)], 2⟩ : ReplayCache).seen.any
        (fun p => p.1 == "c") = false) ∧
    (ReplayCache.record "c" 100 ⟨[("a", 100), ("b", 100)], 2⟩).seen.length > 2 :=
  ⟨⟨rfl, rfl⟩,
    c3_replay_cache_no_capacity_bound ⟨[("a", 100), ("b", 100)], 2⟩ "c" 100 rfl rfl⟩

/-! ## Bundle data model (`types.py` dataclasses, `bundle.py` `Manifest`)

Only the fields the verification pipeline reads are carried.
`composition`, `revocation` and `metadata` are consumed solely by the
revocation checker / formatter, whose outcomes enter the pipeline model
through `PipelineEnv`. -/

structure Timestamps where
  iat : Nat
  nbf : Nat
  exp : Nat
  jti : String
deriving DecidableEq, Repr

structure Budget where
  token_count : Nat
  tokenizer : String
  max_context_share : ℚ
deriving DecidableEq, Repr

structure Scope where
  model_families : List String
  purposes : List String
  environments : List String
  audiences : List String
  regions : List String
deriving DecidableEq, Repr

structure SafetyAttestation where
  auditor : String
  auditor_key_id : String
  reviewed_at : Nat
  attestation_type : String
  signature : String
deriving DecidableEq, Repr

structure Issuer where
  id : String
  public_key : String
  key_id : String
deriving DecidableEq, Repr

structure BundleInfo where
  id : String
  version : String
  content_hash : String
  content_encoding : String
  content_format : String
deriving DecidableEq, Repr

structure ManifestSignature where
  algorithm : String
  value : String
  signed_fields : List String
deriving DecidableEq, Repr

structure Manifest where
  vcp_version : String
  bundle : BundleInfo
  issuer : Issuer
  timestamps : Timestamps
  budget : Budget
  safety_attestation : SafetyAttestation
  signature : ManifestSignature
  scope : Option Scope
deriving DecidableEq, Repr

structure Bundle where
  manifest : Manifest
  content : List Char
deriving DecidableEq, Repr

/-- `len(content.encode())`: UTF-8 byte length of the content. -/
def utf8Len (s : List Char) : Nat := (s.map Char.utf8Size).sum

def listStartsWith : List Char → List Char → Bool
  | [], _ => true
  | _ :: _, [] => false
  | p :: ps, c :: cs => p == c && listStartsWith ps cs

/-- `sig_value[7:] if sig_value.startswith("base64:") else sig_value`. -/
def stripB64 (s : String) : String :=
  if listStartsWith "base64:".data s.data then String.mk (s.data.drop 7) else s

/-- Outcome of `RevocationChecker.check` as observed by the pipeline:
either a status (`revoked` flag) or an exception (fail-open). -/
inductive RevOutcome
  | status (revoked : Bool)
  | raisedExc
deriving DecidableEq, Repr

/-- Outcome of the `pre_inject` hook chain as observed by the pipeline:
chain completed, chain aborted, or the executor itself threw (fail-open). -/
inductive HookOutcome
  | completed
  | aborted
  | raisedExc
deriving DecidableEq, Repr

/-- Environment of a single `Orchestrator.verify` call: the clock, the
opaque functions the pipeline consumes (NFC, SHA-256 hex digest, JSON
serialization length, JCS manifest canonicalization, the optional Ed25519
verification callback, `fnmatch`), and the outcomes of the optional
revocation checker and hook executor collaborators.  The Python code calls
`datetime.utcnow()` at several points inside one `verify` call; the model
uses one `now` per call. -/
structure PipelineEnv where
  now : Nat
  nfc : List Char → List Char
  sha256hex : List Char → String
  manifestJsonLen : Manifest → Nat
  canonManifest : Manifest → List Char
  verifySigFn : Option (String → List Char → String → Bool)
  fnmatchFn : String → String → Bool
  revocation : Option RevOutcome
  hook : Option HookOutcome

/-- `VerificationContext` (minus the trust config, which is passed
separately). -/
structure VerificationContext where
  model_context_limit : Nat := 128000
  model_family : String := "claude-*"
  purpose : String := "general-assistant"
  environment : String := "production"
deriving DecidableEq, Repr

/-! ## The verification pipeline (`orchestrator.py`, `Orchestrator.verify`)

The model additionally threads a ghost trace `passed`: the names of the
checks that ran and passed so far, in the order the code executes them.
This instrumentation does not influence any branch. -/

/-- `int(context.model_context_limit * max_share)`: truncation toward zero
of the exact rational product `limit * share` (the float product of the
source is modelled by exact rational arithmetic), computed as
`(limit * share.num) tdiv share.den`. -/
def maxTokensFor (limit : Nat) (share : ℚ) : Int :=
  Int.tdiv ((limit : Int) * share.num) (share.den : Int)

def MAX_MANIFEST_SIZE : Nat := 65536
def MAX_CONTENT_SIZE : Nat := 262144
def CLOCK_SKEW_SECS : Nat := 5 * 60
def MAX_EXP_SECS : Nat := 90 * 86400

/-- Outcome of steps 1–7 of `verify` (everything before the replay check):
a failure result, a propagated `ValueError` from `canonicalize_content`
(which `verify` does not catch), or success-so-far. -/
inductive PreOutcome
  | fail (r : VerificationResult) (passed : List String)
  | raise (e : CanonErr) (passed : List String)
  | pass (passed : List String)
deriving DecidableEq, Repr

/-- Steps 1–7 of `Orchestrator.verify`: size limits, content hash (which can
raise from canonicalization), issuer trust, manifest signature, auditor
trust, the (absent) attestation signature check, revocation, and the
temporal claims.  Step 6 of the source reads
`manifest.safety_attestation.signature`, strips the `base64:` prefix and
then performs no verification (“For now, we trust the presence of the
attestation”), so no branch here depends on it. -/
def preChecks (env : PipelineEnv) (trust : TrustConfig) (b : Bundle) :
    PreOutcome :=
  let m := b.manifest
  if env.manifestJsonLen m > MAX_MANIFEST_SIZE then .fail .SIZE_EXCEEDED []
  else if utf8Len b.content > MAX_CONTENT_SIZE then .fail .SIZE_EXCEEDED []
  else
    match canonicalize_content env.nfc b.content with
    | .error e => .raise e ["size"]
    | .ok canon =>
      if !(("sha256:" ++ env.sha256hex canon) == m.bundle.content_hash) then
        .fail .HASH_MISMATCH ["size"]
      else
        match trust.get_issuer_key m.issuer.id m.issuer.key_id env.now with
        | none => .fail .UNTRUSTED_ISSUER ["size", "hash"]
        | some issuer_key =>
          let sigOk :=
            match env.verifySigFn with
            | none => true
            | some f =>
              f issuer_key.public_key (env.canonManifest m)
                (stripB64 m.signature.value)
          if !sigOk then .fail .INVALID_SIGNATURE ["size", "hash", "issuer"]
          else
            match trust.get_auditor_key m.safety_attestation.auditor
                m.safety_attestation.auditor_key_id env.now with
            | none =>
              .fail .UNTRUSTED_AUDITOR ["size", "hash", "issuer", "signature"]
            | some _auditor_key =>
              let p5 := ["size", "hash", "issuer", "signature", "auditor"]
              match env.revocation with
              | some (.status true) => .fail .REVOKED p5
              | other =>
                let p6 := p5 ++ (if other.isSome then ["revocation"] else [])
                let ts := m.timestamps
                if env.now < ts.nbf then .fail .NOT_YET_VALID p6
                else if ts.exp < env.now then .fail .EXPIRED (p6 ++ ["nbf"])
                else if ts.iat > env.now + CLOCK_SKEW_SECS then
                  .fail .FUTURE_TIMESTAMP (p6 ++ ["nbf", "exp"])
                else if ts.exp > ts.iat + MAX_EXP_SECS then
                  .fail .EXPIRED (p6 ++ ["nbf", "exp", "timestamp"])
                else .pass (p6 ++ ["nbf", "exp", "timestamp", "maxexp"])

/-- Result of a full `verify` call: the returned `VerificationResult` (or a
propagated canonicalization `ValueError`), the replay cache after the call,
and the ghost trace of passed checks. -/
inductive VerifyOutcome
  | ok (r : VerificationResult) (cache : ReplayCache) (passed : List String)
  | raised (e : CanonErr) (cache : ReplayCache) (passed : List String)
deriving DecidableEq, Repr

def VerifyOutcome.result : VerifyOutcome → Option VerificationResult
  | .ok r _ _ => some r
  | .raised _ _ _ => none

def VerifyOutcome.passed : VerifyOutcome → List String
  | .ok _ _ p => p
  | .raised _ _ p => p

def VerifyOutcome.cache : VerifyOutcome → ReplayCache
  | .ok _ c _ => c
  | .raised _ c _ => c

/-- Steps 12–13 of `verify`: the content-safety scan computes findings and
discards them (`pass` in the source), then the optional `pre_inject` hook
chain fires; `aborted` maps to `INVALID_ATTESTATION`, an executor exception
is fail-open. -/
def finishHooks (env : PipelineEnv) (c : ReplayCache) (p : List String) :
    VerifyOutcome :=
  match env.hook with
  | some .aborted => .ok .INVALID_ATTESTATION c p
  | _ => .ok .VALID c p

/-- `Orchestrator.verify`. -/
def verify (env : PipelineEnv) (trust : TrustConfig)
    (ctx : VerificationContext) (cache : ReplayCache) (b : Bundle) :
    VerifyOutcome :=
  match preChecks env trust b with
  | .raise e p => .raised e cache p
  | .fail r p => .ok r cache p
  | .pass p =>
    let ts := b.manifest.timestamps
    let sc := cache.is_seen env.now ts.jti
    if sc.1 then .ok .REPLAY_DETECTED sc.2 p
    else
      let c3 := ReplayCache.record ts.jti ts.exp sc.2
      let p2 := p ++ ["replay"]
      let maxTokens : Int :=
        maxTokensFor ctx.model_context_limit
          b.manifest.budget.max_context_share
      if (b.manifest.budget.token_count : Int) > maxTokens then
        .ok .BUDGET_EXCEEDED c3 p2
      else
        let p3 := p2 ++ ["budget"]
        match b.manifest.scope with
        | some scope =>
          if !scope.model_families.isEmpty &&
              !(scope.model_families.any
                (fun pat => env.fnmatchFn ctx.model_family pat)) then
            .ok .SCOPE_MISMATCH c3 p3
          else if !scope.purposes.isEmpty &&
              !(scope.purposes.contains ctx.purpose) then
            .ok .SCOPE_MISMATCH c3 p3
          else if !scope.environments.isEmpty &&
              !(scope.environments.contains ctx.environment) then
            .ok .SCOPE_MISMATCH c3 p3
          else finishHooks env c3 (p3 ++ ["scope"])
        | none => finishHooks env c3 p3

/-! ## Concrete fixtures for the orchestrator claims -/

/-- An always-usable trust anchor. -/
def fxAnchor (eid kid typ : String) : TrustAnchor :=
  { id := eid, key_id := kid, algorithm := "ed25519",
    public_key := "ed25519:PK-" ++ eid, anchor_type := typ,
    valid_from := 0, valid_until := 10000000, state := "active" }

def fxTrust : TrustConfig :=
  { issuers := [("issuer-1", [fxAnchor "issuer-1" "ik1" "issuer"])],
    auditors := [("auditor-1", [fxAnchor "auditor-1" "ak1" "auditor"])] }

/-- A signature-verification oracle that accepts exactly the signature
string `"goodsig"` (for any key and message). -/
def sigAccept : String → List Char → String → Bool :=
  fun _ _ sig => sig == "goodsig"

def fxEnv : PipelineEnv :=
  { now := 5000, nfc := id, sha256hex := fun _ => "d",
    manifestJsonLen := fun _ => 100, canonManifest := fun _ => [],
    verifySigFn := some sigAccept, fnmatchFn := fun _ _ => true,
    revocation := none, hook := none }

/-- A manifest whose issuer signature is the accepted `"goodsig"` and whose
attestation signature is a caller-chosen string. -/
def fxManifest (content_hash attSig : String) : Manifest where
  vcp_version := "1.0"
  bundle :=
    { id := "creed://test/minimal"
      version := "1.0.0"
      content_hash := content_hash
      content_encoding := "utf-8"
      content_format := "text/markdown" }
  issuer :=
    { id := "issuer-1"
      public_key := "ed25519:PK-issuer-1"
      key_id := "ik1" }
  timestamps := { iat := 4000, nbf := 4000, exp := 9000, jti := "jti-1" }
  budget :=
    { token_count := 100
      tokenizer := "cl100k"
      max_context_share := mkRat 1 4 }
  safety_attestation :=
    { auditor := "auditor-1"
      auditor_key_id := "ak1"
      reviewed_at := 4000
      attestation_type := "injection-safe"
      signature := attSig }
  signature :=
    { algorithm := "ed25519"
      value := "base64:goodsig"
      signed_fields := [] }
  scope := none

/-- Bundle whose attestation signature `"base64:badsig"` is rejected by the
configured verifier, everything else in order. -/
def c1Bundle : Bundle :=
  { manifest := fxManifest "sha256:d" "base64:badsig", content := ['x', '\n'] }

/-- **C1 (counter to the claim).** The pipeline reaches step 6 (all of size,
hash, issuer trust, manifest signature and auditor trust pass), the
attestation signature `"badsig"` is invalid under the configured
verification function for every conceivable payload — and `verify` still
returns `VALID`: step 6 of `Orchestrator.verify` never calls
`_verify_signature` on the attestation. -/
theorem c1_attestation_signature_not_verified :
    (verify fxEnv fxTrust {} ⟨[], 100000⟩ c1Bundle).result = some .VALID ∧
      (∀ pk msg, sigAccept pk msg
        (stripB64 c1Bundle.manifest.safety_attestation.signature) = false) :=
  ⟨rfl, fun _ _ => rfl⟩

/-- Bundle whose content embeds the forbidden bidi override U+202E and
passes both size checks. -/
def c2Bundle : Bundle :=
  { manifest := fxManifest "sha256:d" "base64:goodsig",
    content := ['b', 'a', 'd', '‮', '\n'] }

/-- **C2 (counter to the claim).** On content containing U+202E the
`ValueError` raised by `canonicalize_content` propagates out of
`Orchestrator.verify` (modelled as `.raised`): verification terminates with
an exception, not with the returned value `INVALID_SCHEMA` (which `verify`
never returns on any path). -/
theorem c2_forbidden_char_raises_instead_of_invalid_schema :
    verify fxEnv fxTrust {} ⟨[], 100000⟩ c2Bundle =
      .raised (.forbiddenChar 3 '‮') ⟨[], 100000⟩ ["size"] :=
  rfl

/-! ## Audit `checks_passed` derivation (`audit.py`, `log_verification`) -/

/-- The list assigned when `result == VerificationResult.VALID`. -/
def auditFullChecks : List String :=
  ["size", "schema", "signature", "attestation", "hash",
   "temporal", "replay", "budget", "scope", "revocation"]

/-- The `check_order` list of the failure branch. -/
def auditCheckOrder : List String :=
  ["size", "schema", "issuer", "signature", "auditor", "attestation",
   "hash", "nbf", "exp", "timestamp", "replay", "tokens", "budget",
   "scope", "revoked"]

/-- The `checks` list `log_verification` derives from the outcome alone:
full list on `VALID`; `check_order[:result.value - 1]` when
`0 < result.value ≤ len(check_order)`; `[]` otherwise. -/
def auditChecksFor (r : VerificationResult) : List String :=
  if r = .VALID then auditFullChecks
  else if 0 < r.value then
    (if r.value ≤ auditCheckOrder.length then
      auditCheckOrder.take (r.value - 1)
    else [])
  else []

/-- Bundle whose declared content hash does not match its content, with
everything earlier in the pipeline in order. -/
def c4Bundle : Bundle :=
  { manifest := fxManifest "sha256:WRONG" "base64:goodsig",
    content := ['x', '\n'] }

/-- **C4 (counter to the claim).** A bundle failing the content-hash check
yields `HASH_MISMATCH`; the orchestrator ran and passed only the size check
(`["size"]` — the hash check is pipeline step 2), but the audit derivation
reports `["size", "schema", "issuer", "signature", "auditor",
"attestation"]`: an enum-order prefix naming four checks that never ran
(and a "schema" check `verify` does not perform at all), not the prefix of
executed checks. -/
theorem c4_counterexample_checks_passed :
    (verify fxEnv fxTrust {} ⟨[], 100000⟩ c4Bundle).result =
        some .HASH_MISMATCH ∧
      (verify fxEnv fxTrust {} ⟨[], 100000⟩ c4Bundle).passed = ["size"] ∧
      auditChecksFor .HASH_MISMATCH =
        ["size", "schema", "issuer", "signature", "auditor", "attestation"] ∧
      (auditChecksFor .HASH_MISMATCH ==
        (verify fxEnv fxTrust {} ⟨[], 100000⟩ c4Bundle).passed) = false :=
  ⟨rfl, rfl, rfl, rfl⟩

/-- **C4 (amended).** `checks_passed` is a function of the result code
alone: on `VALID` the fixed full check list; on a failure code whose enum
value is at most 15, the first `value − 1` names of the fixed enum-ordered
`check_order` list — an enum-order prefix, which need not coincide with the
checks the orchestrator actually executed. -/
theorem c4_amended_checks_passed_enum_prefix (r : VerificationResult)
    (h : r ≠ .VALID) (h15 : r.value ≤ 15) :
    auditChecksFor .VALID = auditFullChecks ∧
      auditChecksFor r = auditCheckOrder.take (r.value - 1) := by
  refine ⟨rfl, ?_⟩
  cases r
  case VALID => exact absurd rfl h
  case FETCH_FAILED => exact absurd h15 (by decide)
  all_goals rfl

/-- Witness for the amended C4 at `HASH_MISMATCH`. -/
theorem c4_witness :
    (VerificationResult.HASH_MISMATCH ≠ .VALID ∧
      VerificationResult.HASH_MISMATCH.value ≤ 15) ∧
    (auditChecksFor .VALID = auditFullChecks ∧
      auditChecksFor .HASH_MISMATCH =
        auditCheckOrder.take (VerificationResult.HASH_MISMATCH.value - 1)) :=
  ⟨⟨by decide, by decide⟩,
    c4_amended_checks_passed_enum_prefix .HASH_MISMATCH (by decide) (by decide)⟩

/-! ### Replay-cache mutation on late failures (C9) -/

/-- The failure codes `preChecks` (steps 1–7) can yield. -/
theorem preChecks_fail_mem (env : PipelineEnv) (trust : TrustConfig)
    (b : Bundle) (r : VerificationResult) (p : List String)
    (h : preChecks env trust b = .fail r p) :
    r ∈ [VerificationResult.SIZE_EXCEEDED, .HASH_MISMATCH, .UNTRUSTED_ISSUER,
      .INVALID_SIGNATURE, .UNTRUSTED_AUDITOR, .REVOKED, .NOT_YET_VALID,
      .EXPIRED, .FUTURE_TIMESTAMP] := by
  unfold preChecks at h
  dsimp only at h
  repeat any_goals (first | split at h | dsimp only at h)
  all_goals
    first
    | (injection h with h1 h2; subst h1; decide)
    | injection h

/-- If steps 1–7 all pass, the bundle is not yet expired: `now ≤ exp`. -/
theorem preChecks_pass_now_le_exp (env : PipelineEnv) (trust : TrustConfig)
    (b : Bundle) (p : List String)
    (h : preChecks env trust b = .pass p) :
    env.now ≤ b.manifest.timestamps.exp := by
  unfold preChecks at h
  dsimp only at h
  repeat any_goals (first | split at h | dsimp only at h)
  all_goals
    first
    | (exact Nat.le_of_not_lt (by assumption))
    | injection h

theorem any_upsert (jti : String) (e : Nat) :
    ∀ l : List (String × Nat), l.any (fun p => p.1 == jti) = true →
      (l.map (fun p => if p.1 == jti then (jti, e) else p)).any
        (fun p => p.1 == jti) = true := by
  intro l
  induction l with
  | nil => intro h; simp at h
  | cons a l ih =>
    intro h
    rw [List.map_cons, List.any_cons]
    rw [List.any_cons] at h
    cases ha : (a.1 == jti) with
    | true => simp [ha]
    | false =>
      rw [ha, Bool.false_or] at h
      simp only [ha, Bool.false_eq_true, if_false, Bool.false_or]
      exact ih h

/-- After `record jti e`, the cache contains an entry for `jti`. -/
theorem record_mem_jti (jti : String) (e : Nat) (c : ReplayCache) :
    ((ReplayCache.record jti e c).seen.any (fun q => q.1 == jti)) = true := by
  unfold ReplayCache.record
  split
  · rename_i hin
    exact any_upsert jti e c.seen hin
  · simp

/-- A cleanup on a cache whose entries are all unexpired does nothing. -/
theorem cleanup_of_all_live (now : Nat) (c : ReplayCache)
    (h : ∀ q ∈ c.seen, ¬ (q.2 < now)) : c.cleanup now = c := by
  unfold ReplayCache.cleanup
  have heq : c.seen.filter (fun q => !(q.2 < now)) = c.seen := by
    rw [List.filter_eq_self]
    intro a ha
    simpa using h a ha
  rw [heq]

/-- **C9.** `Orchestrator.verify` mutates the replay cache even on failure:
if a `verify` call returns `BUDGET_EXCEEDED`, `SCOPE_MISMATCH`, or the
hook-abort `INVALID_ATTESTATION` — the failures ordered after the replay
step — the bundle's `jti` is left recorded in the resulting cache, and a
subsequent `verify` of the same bundle (same environment) returns
`REPLAY_DETECTED` instead of the original failure.  Verification is not
atomic with respect to the replay cache on error. -/
theorem c9_verify_records_jti_on_late_failure
    (env : PipelineEnv) (trust : TrustConfig) (ctx : VerificationContext)
    (cache c2 : ReplayCache) (b : Bundle) (r : VerificationResult)
    (p : List String)
    (h : verify env trust ctx cache b = .ok r c2 p)
    (hr : r = .BUDGET_EXCEEDED ∨ r = .SCOPE_MISMATCH ∨
      r = .INVALID_ATTESTATION) :
    c2.seen.any (fun q => q.1 == b.manifest.timestamps.jti) = true ∧
      (verify env trust ctx c2 b).result = some .REPLAY_DETECTED := by
  unfold verify at h
  cases hpre : preChecks env trust b with
  | raise e pp => rw [hpre] at h; cases h
  | fail rf pp =>
    rw [hpre] at h
    have hmem := preChecks_fail_mem env trust b rf pp hpre
    injection h with h1 h2 h3
    subst h1
    rcases hr with rfl | rfl | rfl <;> exact absurd hmem (by decide)
  | pass pp =>
    rw [hpre] at h
    dsimp only at h
    cases hseen : (ReplayCache.is_seen env.now b.manifest.timestamps.jti cache).1 with
    | true =>
      rw [hseen] at h
      simp only [if_true] at h
      injection h with h1 h2 h3
      subst h1
      rcases hr with h | h | h <;> cases h
    | false =>
      rw [hseen] at h
      simp only [Bool.false_eq_true, if_false] at h
      -- the cache in every remaining branch is the recorded one
      have hc2 : c2 = ReplayCache.record b.manifest.timestamps.jti
          b.manifest.timestamps.exp (cache.cleanup env.now) := by
        unfold finishHooks at h
        repeat
          first
          | (injection h with h1 h2 h3; exact h2.symm)
          | split at h
      have hrec := record_mem_jti b.manifest.timestamps.jti
        b.manifest.timestamps.exp (cache.cleanup env.now)
      constructor
      · rw [hc2]; exact hrec
      · -- second verify hits the replay check
        have hlive : ∀ q ∈ c2.seen, ¬ (q.2 < env.now) := by
          intro q hq
          rw [hc2] at hq
          unfold ReplayCache.record at hq
          split at hq
          · rw [List.mem_map] at hq
            obtain ⟨a, ha, rfl⟩ := hq
            have ha2 := List.of_mem_filter
              (p := fun (q : String × Nat) => !(q.2 < env.now)) ha
            split
            · exact fun hlt => by
                have := preChecks_pass_now_le_exp env trust b pp hpre
                exact absurd hlt (Nat.not_lt.mpr this)
            · simpa using ha2
          · rw [List.mem_append] at hq
            rcases hq with hq | hq
            · have ha2 := List.of_mem_filter
                (p := fun (q : String × Nat) => !(q.2 < env.now)) hq
              simpa using ha2
            · simp only [List.mem_singleton] at hq
              subst hq
              have := preChecks_pass_now_le_exp env trust b pp hpre
              exact Nat.not_lt.mpr this
        have hclean : c2.cleanup env.now = c2 := cleanup_of_all_live env.now c2 hlive
        unfold verify
        rw [hpre]
        dsimp only
        have hseen2 : (ReplayCache.is_seen env.now b.manifest.timestamps.jti c2).1 = true := by
          unfold ReplayCache.is_seen
          dsimp only
          rw [hclean, hc2]
          exact hrec
        rw [hseen2]
        simp [VerifyOutcome.result]

/-- Bundle that reaches the budget check and fails it: 50,000 declared
tokens against `int(128000 * 1/4) = 32000`. -/
def c9Budget : Budget :=
  { token_count := 50000
    tokenizer := "cl100k"
    max_context_share := mkRat 1 4 }

def c9Bundle : Bundle where
  manifest := { fxManifest "sha256:d" "base64:goodsig" with budget := c9Budget }
  content := ['x', '\n']

/-- Witness for C9: after a `BUDGET_EXCEEDED` failure the jti is cached and
re-verification reports `REPLAY_DETECTED`. -/
theorem c9_witness :
    ((⟨[("jti-1", 9000)], 100000⟩ : ReplayCache).seen.any
        (fun q => q.1 == c9Bundle.manifest.timestamps.jti) = true) ∧
      (verify fxEnv fxTrust {} ⟨[("jti-1", 9000)], 100000⟩ c9Bundle).result =
        some .REPLAY_DETECTED :=
  c9_verify_records_jti_on_late_failure fxEnv fxTrust {} ⟨[], 100000⟩
    ⟨[("jti-1", 9000)], 100000⟩ c9Bundle .BUDGET_EXCEEDED
    ["size", "hash", "issuer", "signature", "auditor", "nbf", "exp",
      "timestamp", "maxexp", "replay"] rfl (Or.inl rfl)

/-! ## Constitution composer (`semantics/composer.py`)

Rule strings are `List Char`.  `str.strip()` / `str.lower()` are modelled
over the ASCII whitespace and letter ranges (constitution rule text); the
conflict lexicon and stop-word list are ASCII. -/

inductive CompositionMode
  | BASE
  | EXTEND
  | OVERRIDE
  | STRICT
deriving DecidableEq, Repr

/-- `Conflict` dataclass. -/
structure Conflict where
  rule_a : List Char
  source_a : String
  rule_b : List Char
  source_b : String
  conflict_type : String
  resolution : Option String := none
deriving DecidableEq, Repr

/-- One entry of `CompositionResult.warnings`; the source formats it as
`f"Rule '{rule}' ({source}) overrides '{overridden}'"`. -/
structure OverrideWarning where
  rule : List Char
  source : String
  overridden : List Char
deriving DecidableEq, Repr

structure CompositionResult where
  merged_rules : List (List Char)
  conflicts : List Conflict
  warnings : List OverrideWarning
  mode_used : CompositionMode
deriving DecidableEq, Repr

def isPySpace (c : Char) : Bool :=
  c = ' ' || c = '\t' || c = '\n' || c = '\r' || c = '\x0b' || c = '\x0c'

/-- Python `str.strip()`. -/
def pyStrip (l : List Char) : List Char :=
  ((l.dropWhile isPySpace).reverse.dropWhile isPySpace).reverse

/-- Python `str.lower()`. -/
def pyLower (l : List Char) : List Char := l.map Char.toLower

structure Constitution where
  id : String
  rules : List (List Char)
  priority : Int := 0
deriving DecidableEq, Repr

/-- `Constitution(id, rules)` including `__post_init__`:
`self.rules = [r.strip() for r in self.rules if r.strip()]`. -/
def mkConstitution (cid : String) (rules : List (List Char)) : Constitution :=
  { id := cid, rules := (rules.map pyStrip).filter (fun r => !r.isEmpty) }

/-- Python `str.split()` (split on whitespace runs, no empty parts). -/
def splitWsAux : List Char → List Char → List (List Char)
  | [], acc => if acc.isEmpty then [] else [acc.reverse]
  | c :: rest, acc =>
    if isPySpace c then
      if acc.isEmpty then splitWsAux rest []
      else acc.reverse :: splitWsAux rest []
    else splitWsAux rest (c :: acc)

def pyWords (l : List Char) : List (List Char) := splitWsAux l []

/-- `needle in hay` (Python substring containment). -/
def containsSub (needle hay : List Char) : Bool :=
  match hay with
  | [] => needle.isEmpty
  | _ :: rest => listStartsWith needle hay || containsSub needle rest

/-- `CONFLICT_KEYWORDS`: keyword ↦ set of opposites. -/
def CONFLICT_KEYWORDS : List (List Char × List (List Char)) :=
  [("always".toList, ["never".toList]),
   ("never".toList, ["always".toList]),
   ("must".toList, ["must not".toList, "should not".toList, "never".toList]),
   ("must not".toList, ["must".toList, "always".toList]),
   ("allow".toList, ["forbid".toList, "prohibit".toList, "deny".toList]),
   ("forbid".toList, ["allow".toList, "permit".toList]),
   ("prohibit".toList, ["allow".toList, "permit".toList]),
   ("require".toList, ["forbid".toList, "prohibit".toList])]

/-- The stop-word list of `_same_topic`. -/
def COMMON_WORDS : List (List Char) :=
  ["the".toList, "a".toList, "an".toList, "is".toList, "are".toList,
   "be".toList, "to".toList, "of".toList, "and".toList, "or".toList,
   "in".toList, "on".toList, "at".toList, "for".toList, "with".toList,
   "by".toList, "from".toList, "as".toList, "it".toList, "this".toList,
   "that".toList, "these".toList, "those".toList, "you".toList,
   "we".toList, "they".toList, "i".toList]

/-- `_same_topic`: ≥ 2 distinct significant words shared (arguments are
already lowercased by the caller). -/
def sameTopic (a b : List Char) : Bool :=
  let wa := ((pyWords a).filter (fun w => !(COMMON_WORDS.contains w))).dedup
  let wb := (pyWords b).filter (fun w => !(COMMON_WORDS.contains w))
  decide (2 ≤ (wa.filter (fun w => wb.contains w)).length)

/-- `_rules_conflict`: keyword in `a`, an opposite in `b`, same topic. -/
def rulesConflict (rule_a rule_b : List Char) : Bool :=
  let al := pyLower rule_a
  let bl := pyLower rule_b
  CONFLICT_KEYWORDS.any (fun kw =>
    containsSub kw.1 al &&
      kw.2.any (fun opp => containsSub opp bl && sameTopic al bl))

/-- `_determine_conflict_type`: fixed decision table on the keyword pair. -/
def determineConflictType (rule_a rule_b : List Char) : String :=
  let al := pyLower rule_a
  let bl := pyLower rule_b
  if (containsSub "always".toList al && containsSub "never".toList bl) ||
      (containsSub "never".toList al && containsSub "always".toList bl) then
    "contradiction"
  else if (containsSub "must not".toList al && containsSub "must".toList bl &&
        !containsSub "must not".toList bl) ||
      (containsSub "must".toList al && !containsSub "must not".toList al &&
        containsSub "must not".toList bl) then
    "contradiction"
  else if (containsSub "allow".toList al && containsSub "forbid".toList bl) ||
      (containsSub "forbid".toList al && containsSub "allow".toList bl) then
    "contradiction"
  else "tension"

/-- `_detect_conflict`: first existing rule conflicting with `rule`. -/
def detectConflict (rule : List Char) (source : String)
    (existing : List (List Char)) (existing_source : String) :
    Option Conflict :=
  match existing.find? (fun er => rulesConflict rule er) with
  | some er =>
    some { rule_a := rule, source_a := source, rule_b := er,
           source_b := existing_source,
           conflict_type := determineConflictType rule er }
  | none => none

/-- `sources.get(rule, "unknown")`. -/
def lookupSource (srcs : List (List Char × String)) (r : List Char) : String :=
  match srcs.find? (fun p => p.1 == r) with
  | some p => p.2
  | none => "unknown"

/-- Python dict assignment `sources[rule] = id`. -/
def upsertSource (srcs : List (List Char × String)) (r : List Char)
    (cid : String) : List (List Char × String) :=
  if srcs.any (fun p => p.1 == r) then
    srcs.map (fun p => if p.1 == r then (r, cid) else p)
  else srcs ++ [(r, cid)]

/-- One rule of `_compose_base`: conflicts with the merged set are
recorded, not added; otherwise append. -/
def baseStep (baseId cid : String)
    (st : List (List Char) × List Conflict) (rule : List Char) :
    List (List Char) × List Conflict :=
  match detectConflict rule cid st.1 baseId with
  | some c => (st.1, st.2 ++ [c])
  | none => (st.1 ++ [rule], st.2)

/-- `_compose_base`. -/
def composeBase : List Constitution → CompositionResult
  | [] =>
    { merged_rules := [], conflicts := [], warnings := [], mode_used := .BASE }
  | base :: rest =>
    let st := rest.foldl
      (fun st c => c.rules.foldl (baseStep base.id c.id) st) (base.rules, [])
    { merged_rules := st.1, conflicts := st.2, warnings := [],
      mode_used := .BASE }

structure ExtendSt where
  merged : List (List Char)
  conflicts : List Conflict
  sources : List (List Char × String)
deriving Repr

/-- One rule of `_compose_extend`. -/
def extendStep (cid : String) (st : ExtendSt) (rule : List Char) : ExtendSt :=
  match detectConflict rule cid st.merged (lookupSource st.sources rule) with
  | some c => { st with conflicts := st.conflicts ++ [c] }
  | none =>
    { merged := st.merged ++ [rule], conflicts := st.conflicts,
      sources := upsertSource st.sources rule cid }

/-- `_compose_extend`; a nonempty conflict list raises
`CompositionConflictError` (modelled as `.error conflicts`). -/
def composeExtend (cs : List Constitution) :
    Except (List Conflict) CompositionResult :=
  let st := cs.foldl (fun st c => c.rules.foldl (extendStep c.id) st) ⟨[], [], []⟩
  if st.conflicts.isEmpty then
    .ok { merged_rules := st.merged, conflicts := [], warnings := [],
          mode_used := .EXTEND }
  else .error st.conflicts

/-- One rule of `_compose_override`: drop every conflicting earlier rule
(recording a warning per removal, in list order), then append. -/
def overrideStep (cid : String)
    (st : List (List Char) × List OverrideWarning) (rule : List Char) :
    List (List Char) × List OverrideWarning :=
  let kept := st.1.filter (fun existing => !rulesConflict existing rule)
  let ws := (st.1.filter (fun existing => rulesConflict existing rule)).map
    (fun existing =>
      ({ rule := rule, source := cid, overridden := existing } : OverrideWarning))
  (kept ++ [rule], st.2 ++ ws)

/-- `_compose_override`. -/
def composeOverride (cs : List Constitution) : CompositionResult :=
  let st := cs.foldl (fun st c => c.rules.foldl (overrideStep c.id) st) ([], [])
  { merged_rules := st.1, conflicts := [], warnings := st.2,
    mode_used := .OVERRIDE }

structure StrictSt where
  merged : List (List Char)
  conflicts : List Conflict
  seen : List (List Char)
  sources : List (List Char × String)
deriving Repr

/-- One rule of `_compose_strict`: duplicates (case-insensitive, stripped)
and conflicts are both recorded. -/
def strictStep (cid : String) (st : StrictSt) (rule : List Char) : StrictSt :=
  let normalized := pyStrip (pyLower rule)
  if st.seen.contains normalized then
    { st with conflicts := st.conflicts ++
        [{ rule_a := rule, source_a := cid, rule_b := rule,
           source_b := lookupSource st.sources normalized,
           conflict_type := "duplicate" }] }
  else
    match detectConflict rule cid st.merged "earlier" with
    | some c => { st with conflicts := st.conflicts ++ [c] }
    | none =>
      { merged := st.merged ++ [rule], conflicts := st.conflicts,
        seen := st.seen ++ [normalized],
        sources := upsertSource st.sources normalized cid }

/-- `_compose_strict`. -/
def composeStrict (cs : List Constitution) :
    Except (List Conflict) CompositionResult :=
  let st := cs.foldl (fun st c => c.rules.foldl (strictStep c.id) st)
    ⟨[], [], [], []⟩
  if st.conflicts.isEmpty then
    .ok { merged_rules := st.merged, conflicts := [], warnings := [],
          mode_used := .STRICT }
  else .error st.conflicts

/-- `Composer.compose`: dispatch on the mode (empty input short-circuits). -/
def compose (cs : List Constitution) (mode : CompositionMode) :
    Except (List Conflict) CompositionResult :=
  if cs.isEmpty then
    .ok { merged_rules := [], conflicts := [], warnings := [],
          mode_used := mode }
  else
    match mode with
    | .BASE => .ok (composeBase cs)
    | .EXTEND => composeExtend cs
    | .OVERRIDE => .ok (composeOverride cs)
    | .STRICT => composeStrict cs

def cA : Constitution :=
  mkConstitution "C_a" ["Always use formal language.".toList]

def cB : Constitution :=
  mkConstitution "C_b" ["Never use formal language.".toList]

/-- **C7.** Composing `C_a = ["Always use formal language."]` with
`C_b = ["Never use formal language."]` in OVERRIDE mode yields
`merged_rules = ["Never use formal language."]` with exactly one warning
and no conflicts; in EXTEND mode it raises `CompositionConflictError`
carrying exactly one conflict of type `"contradiction"`. -/
theorem c7_composer_override_extend_example :
    compose [cA, cB] .OVERRIDE =
      .ok { merged_rules := ["Never use formal language.".toList],
            conflicts := [],
            warnings := [{ rule := "Never use formal language.".toList,
                           source := "C_b",
                           overridden := "Always use formal language.".toList }],
            mode_used := .OVERRIDE } ∧
    compose [cA, cB] .EXTEND =
      .error [{ rule_a := "Never use formal language.".toList,
                source_a := "C_b",
                rule_b := "Always use formal language.".toList,
                source_b := "unknown",
                conflict_type := "contradiction" }] :=
  ⟨rfl, rfl⟩

/-! ### Normalization of composed rules (C10) -/

/-- A rule with no leading and no trailing whitespace. -/
def noEdgeSpace (r : List Char) : Bool :=
  (match r.head? with
   | none => true
   | some c => !isPySpace c) &&
  (match r.getLast? with
   | none => true
   | some c => !isPySpace c)

/-- A normalized rule: stripped and nonempty. -/
def NormRule (r : List Char) : Prop := noEdgeSpace r = true ∧ r ≠ []

theorem head?_dropWhile_false {α} (p : α → Bool) (l : List α) :
    ∀ c, (l.dropWhile p).head? = some c → p c = false := by
  induction l with
  | nil => intro c h; simp at h
  | cons a l ih =>
    intro c h
    cases hpa : p a
    · simp only [List.dropWhile_cons, hpa, Bool.false_eq_true, if_false,
        List.head?_cons, Option.some.injEq] at h
      subst h
      exact hpa
    · simp only [List.dropWhile_cons, hpa, if_true] at h
      exact ih c h

theorem getLast?_dropWhile {α} (p : α → Bool) (l : List α)
    (h : l.dropWhile p ≠ []) : (l.dropWhile p).getLast? = l.getLast? := by
  induction l with
  | nil => simp at h
  | cons a l ih =>
    cases hpa : p a
    · simp only [List.dropWhile_cons, hpa, Bool.false_eq_true, if_false]
    · simp only [List.dropWhile_cons, hpa, if_true] at h ⊢
      rw [ih h]
      have hl : l ≠ [] := by
        intro hnil
        rw [hnil] at h
        simp at h
      cases l with
      | nil => exact absurd rfl hl
      | cons b t => simp [List.getLast?_cons_cons]

theorem getLast?_reverse_eq_head? {α} (l : List α) :
    l.reverse.getLast? = l.head? := by
  cases l with
  | nil => rfl
  | cons a t =>
    rw [List.reverse_cons, List.getLast?_concat]
    rfl

theorem head?_reverse_eq_getLast? {α} (l : List α) :
    l.reverse.head? = l.getLast? := by
  have h := getLast?_reverse_eq_head? l.reverse
  rw [List.reverse_reverse] at h
  exact h.symm

/-- The output of `str.strip()` carries no edge whitespace. -/
theorem noEdgeSpace_pyStrip (l : List Char) :
    noEdgeSpace (pyStrip l) = true := by
  unfold pyStrip noEdgeSpace
  rw [Bool.and_eq_true]
  refine ⟨?_, ?_⟩
  · rw [head?_reverse_eq_getLast?]
    by_cases hy : (l.dropWhile isPySpace).reverse.dropWhile isPySpace = []
    · rw [hy]; rfl
    · rw [getLast?_dropWhile _ _ hy, getLast?_reverse_eq_head?]
      cases hh : (l.dropWhile isPySpace).head? with
      | none => rfl
      | some c => simp [head?_dropWhile_false isPySpace l c hh]
  · rw [getLast?_reverse_eq_head?]
    cases hh : ((l.dropWhile isPySpace).reverse.dropWhile isPySpace).head? with
    | none => rfl
    | some c =>
      simp [head?_dropWhile_false isPySpace
        (l.dropWhile isPySpace).reverse c hh]

/-- Rules produced by the `Constitution` constructor are normalized. -/
theorem mkConstitution_rules_normalized (cid : String)
    (rules : List (List Char)) :
    ∀ r ∈ (mkConstitution cid rules).rules, NormRule r := by
  intro r hr
  unfold mkConstitution at hr
  simp only [List.mem_filter, List.mem_map] at hr
  obtain ⟨⟨raw, _, rfl⟩, hne⟩ := hr
  refine ⟨noEdgeSpace_pyStrip raw, ?_⟩
  simpa using hne

theorem foldl_preserve {σ α : Type} (Inv : σ → Prop) (Q : α → Prop)
    (f : σ → α → σ)
    (hstep : ∀ st a, Inv st → Q a → Inv (f st a)) :
    ∀ (l : List α) (st : σ), Inv st → (∀ a ∈ l, Q a) → Inv (l.foldl f st) := by
  intro l
  induction l with
  | nil => intro st h _; exact h
  | cons a l ih =>
    intro st h hall
    rw [List.foldl_cons]
    exact ih (f st a) (hstep st a h (hall a (List.mem_cons_self _ _)))
      (fun b hb => hall b (List.mem_cons_of_mem _ hb))

theorem baseStep_preserve (baseId cid : String)
    (st : List (List Char) × List Conflict) (rule : List Char)
    (hInv : ∀ x ∈ st.1, NormRule x) (hr : NormRule rule) :
    ∀ x ∈ (baseStep baseId cid st rule).1, NormRule x := by
  unfold baseStep
  split
  · exact hInv
  · intro x hx
    rw [List.mem_append] at hx
    rcases hx with hx | hx
    · exact hInv x hx
    · rw [List.mem_singleton] at hx; subst hx; exact hr

theorem extendStep_preserve (cid : String) (st : ExtendSt) (rule : List Char)
    (hInv : ∀ x ∈ st.merged, NormRule x) (hr : NormRule rule) :
    ∀ x ∈ (extendStep cid st rule).merged, NormRule x := by
  unfold extendStep
  split
  · exact hInv
  · intro x hx
    rw [List.mem_append] at hx
    rcases hx with hx | hx
    · exact hInv x hx
    · rw [List.mem_singleton] at hx; subst hx; exact hr

theorem overrideStep_preserve (cid : String)
    (st : List (List Char) × List OverrideWarning) (rule : List Char)
    (hInv : ∀ x ∈ st.1, NormRule x) (hr : NormRule rule) :
    ∀ x ∈ (overrideStep cid st rule).1, NormRule x := by
  unfold overrideStep
  intro x hx
  rw [List.mem_append] at hx
  rcases hx with hx | hx
  · exact hInv x (List.mem_of_mem_filter hx)
  · rw [List.mem_singleton] at hx; subst hx; exact hr

theorem strictStep_preserve (cid : String) (st : StrictSt) (rule : List Char)
    (hInv : ∀ x ∈ st.merged, NormRule x) (hr : NormRule rule) :
    ∀ x ∈ (strictStep cid st rule).merged, NormRule x := by
  unfold strictStep
  dsimp only
  by_cases hc : st.seen.contains (pyStrip (pyLower rule)) = true
  · rw [if_pos hc]; exact hInv
  · rw [if_neg hc]
    cases hd : detectConflict rule cid st.merged "earlier" with
    | some c => exact hInv
    | none =>
      show ∀ x ∈ st.merged ++ [rule], NormRule x
      intro x hx
      rw [List.mem_append] at hx
      rcases hx with hx | hx
      · exact hInv x hx
      · rw [List.mem_singleton] at hx; subst hx; exact hr

/-- Helper: any successful `compose` over constitutions whose rules are
all normalized yields normalized `merged_rules`. -/
theorem compose_norm_aux (cs : List Constitution) (mode : CompositionMode)
    (res : CompositionResult)
    (h : compose cs mode = .ok res)
    (hall : ∀ c ∈ cs, ∀ r ∈ c.rules, NormRule r) :
    ∀ r ∈ res.merged_rules, NormRule r := by
  unfold compose at h
  split at h
  · rw [Except.ok.injEq] at h
    intro r hr
    rw [← h] at hr
    simp at hr
  · cases mode with
    | BASE =>
      dsimp only at h
      rw [Except.ok.injEq] at h
      subst h
      cases cs with
      | nil => intro r hr; simp [composeBase] at hr
      | cons base rest =>
        intro r hr
        exact foldl_preserve
          (fun st : List (List Char) × List Conflict => ∀ x ∈ st.1, NormRule x)
          (fun c : Constitution => ∀ x ∈ c.rules, NormRule x)
          _
          (fun st c hInv hQ => foldl_preserve _ NormRule (baseStep base.id c.id)
            (baseStep_preserve base.id c.id) c.rules st hInv hQ)
          rest (base.rules, [])
          (hall base (List.mem_cons_self _ _))
          (fun c hc => hall c (List.mem_cons_of_mem _ hc)) r hr
    | EXTEND =>
      dsimp only at h
      unfold composeExtend at h
      dsimp only at h
      split at h
      · rw [Except.ok.injEq] at h
        subst h
        intro r hr
        exact foldl_preserve
          (fun st : ExtendSt => ∀ x ∈ st.merged, NormRule x)
          (fun c : Constitution => ∀ x ∈ c.rules, NormRule x)
          _
          (fun st c hInv hQ => foldl_preserve _ NormRule (extendStep c.id)
            (extendStep_preserve c.id) c.rules st hInv hQ)
          cs ⟨[], [], []⟩ (fun x hx => absurd hx (by simp)) hall r hr
      · exact absurd h (by simp)
    | OVERRIDE =>
      dsimp only at h
      rw [Except.ok.injEq] at h
      subst h
      intro r hr
      exact foldl_preserve
        (fun st : List (List Char) × List OverrideWarning =>
          ∀ x ∈ st.1, NormRule x)
        (fun c : Constitution => ∀ x ∈ c.rules, NormRule x)
        _
        (fun st c hInv hQ => foldl_preserve _ NormRule (overrideStep c.id)
          (overrideStep_preserve c.id) c.rules st hInv hQ)
        cs ([], []) (fun x hx => absurd hx (by simp)) hall r hr
    | STRICT =>
      dsimp only at h
      unfold composeStrict at h
      dsimp only at h
      split at h
      · rw [Except.ok.injEq] at h
        subst h
        intro r hr
        exact foldl_preserve
          (fun st : StrictSt => ∀ x ∈ st.merged, NormRule x)
          (fun c : Constitution => ∀ x ∈ c.rules, NormRule x)
          _
          (fun st c hInv hQ => foldl_preserve _ NormRule (strictStep c.id)
            (strictStep_preserve c.id) c.rules st hInv hQ)
          cs ⟨[], [], [], []⟩ (fun x hx => absurd hx (by simp)) hall r hr
      · exact absurd h (by simp)

/-- **C10.** Constructing a `Constitution` normalizes its rule list
(each rule stripped, empty rules dropped), so for every input and every
composition mode, a successful `Composer.compose` returns `merged_rules`
containing no empty and no whitespace-padded strings.  (Conflict and
duplicate detection consequently operate on the stripped rule text: every
rule reaching `_rules_conflict` and the strict-mode duplicate set comes
from constructor-normalized lists.) -/
theorem c10_compose_rules_normalized
    (raws : List (String × List (List Char))) (mode : CompositionMode)
    (res : CompositionResult)
    (h : compose (raws.map (fun rc => mkConstitution rc.1 rc.2)) mode = .ok res) :
    ∀ r ∈ res.merged_rules, NormRule r :=
  compose_norm_aux _ mode res h (by
    intro c hc
    rw [List.mem_map] at hc
    obtain ⟨rc, _, rfl⟩ := hc
    exact mkConstitution_rules_normalized rc.1 rc.2)

/-- Witness for C10: raw rules `["  Be kind.  ", "", "   "]` under EXTEND
yield merged rule `"Be kind."`, stripped and nonempty. -/
theorem c10_witness :
    noEdgeSpace "Be kind.".toList = true ∧ "Be kind.".toList ≠ [] :=
  c10_compose_rules_normalized
    [("A", ["  Be kind.  ".toList, "".toList, "   ".toList])]
    .EXTEND
    { merged_rules := ["Be kind.".toList], conflicts := [], warnings := [],
      mode_used := .EXTEND }
    rfl "Be kind.".toList (by simp)

/-! ## Context state tracker (`adaptation/state.py`, `_detect_transition`)

`VCPContext.dimensions` is a `dict[Dimension, list[str]]`; `get(dim)`
returns `[]` for a missing key, and an absent key contributes nothing to
`dimensions.values()`, so a total function with `[]` default is a faithful
model. -/

inductive Dimension
  | TIME
  | SPACE
  | COMPANY
  | CULTURE
  | OCCASION
  | STATE
  | ENVIRONMENT
  | AGENCY
  | CONSTRAINTS
deriving DecidableEq, Repr

/-- `for dim in Dimension` iterates in declaration order. -/
def allDimensions : List Dimension :=
  [.TIME, .SPACE, .COMPANY, .CULTURE, .OCCASION, .STATE, .ENVIRONMENT,
   .AGENCY, .CONSTRAINTS]

structure VCPContext where
  dimensions : Dimension → List String

inductive TransitionSeverity
  | NONE
  | MINOR
  | MAJOR
  | EMERGENCY
deriving DecidableEq, Repr

def MAJOR_DIMENSIONS : List Dimension := [.OCCASION, .AGENCY, .CONSTRAINTS]

def EMERGENCY_VALUES : List String := ["🚨", "⚠️", "🆘"]

/-- `set(xs) == set(ys)`. -/
def sameSet (a b : List String) : Bool :=
  a.all (fun x => b.contains x) && b.all (fun x => a.contains x)

/-- The `changed` list of `_detect_transition`: dimensions whose value
sets differ, in declaration order. -/
def changedDims (previous current : VCPContext) : List Dimension :=
  allDimensions.filter
    (fun d => !sameSet (previous.dimensions d) (current.dimensions d))

/-- `all_current_values`: the union of the current context's value lists
(as a list; only membership is consumed). -/
def currentValues (current : VCPContext) : List String :=
  (allDimensions.map current.dimensions).flatten

/-- The severity computation of `_detect_transition`. -/
def detectSeverity (previous current : VCPContext) : TransitionSeverity :=
  let changed := changedDims previous current
  if (currentValues current).any (fun v => EMERGENCY_VALUES.contains v) then
    .EMERGENCY
  else if changed.any (fun d => MAJOR_DIMENSIONS.contains d) ||
      decide (3 ≤ changed.length) then
    .MAJOR
  else if !changed.isEmpty then .MINOR
  else .NONE

/-- Modelled from the spec's words (§3 Transition classification rule):
emergency iff some current value lies in `EMERGENCY_VALUES`; otherwise
major iff some changed dimension is in `MAJOR_DIMENSIONS` or at least 3
dimensions changed; otherwise minor iff at least one dimension changed;
otherwise none. -/
def specSeverity (previous current : VCPContext) : TransitionSeverity :=
  if ∃ v ∈ currentValues current, v ∈ EMERGENCY_VALUES then .EMERGENCY
  else if (∃ d ∈ changedDims previous current, d ∈ MAJOR_DIMENSIONS) ∨
      3 ≤ (changedDims previous current).length then .MAJOR
  else if changedDims previous current ≠ [] then .MINOR
  else .NONE

/-- **C8.** `_detect_transition` computes exactly the spec's severity
decision rule. -/
theorem c8_transition_severity_follows_spec (previous current : VCPContext) :
    detectSeverity previous current = specSeverity previous current := by
  unfold detectSeverity specSeverity
  have hE : ((currentValues current).any
      (fun v => EMERGENCY_VALUES.contains v) = true) ↔
      ∃ v ∈ currentValues current, v ∈ EMERGENCY_VALUES := by
    simp [List.any_eq_true]
  have hM : ((changedDims previous current).any
        (fun d => MAJOR_DIMENSIONS.contains d) ||
        decide (3 ≤ (changedDims previous current).length)) = true ↔
      (∃ d ∈ changedDims previous current, d ∈ MAJOR_DIMENSIONS) ∨
        3 ≤ (changedDims previous current).length := by
    simp [List.any_eq_true]
  have hC : ((!(changedDims previous current).isEmpty) = true) ↔
      changedDims previous current ≠ [] := by
    simp [List.isEmpty_iff]
  by_cases he : ∃ v ∈ currentValues current, v ∈ EMERGENCY_VALUES
  · rw [if_pos (hE.mpr he), if_pos he]
  · rw [if_neg (fun hb => he (hE.mp hb)), if_neg he]
    by_cases hm : (∃ d ∈ changedDims previous current,
        d ∈ MAJOR_DIMENSIONS) ∨ 3 ≤ (changedDims previous current).length
    · rw [if_pos (hM.mpr hm), if_pos hm]
    · rw [if_neg (fun hb => hm (hM.mp hb)), if_neg hm]
      by_cases hc : changedDims previous current ≠ []
      · rw [if_pos (hC.mpr hc), if_pos hc]
      · rw [if_neg (fun hb => hc (hC.mp hb)), if_neg hc]

/-! ## Hook registry + executor (`hooks/registry.py`, `hooks/executor.py`)

One registry slot — the pair of lists for one `(hook_type, session_id)` —
is modelled; registration and deregistration on other slots never touch
it, and `get_chain` reads exactly one slot.  Hook fields that do not
affect chain order (type, action, condition, description, metadata) are
elided; the enabled/predicate gate and the per-hook result of the
executor are abstracted as Boolean functions of the hook. -/

structure Hook where
  name : String
  priority : Nat
  enabled : Bool := true
  timeout_ms : Nat := 5000
deriving DecidableEq, Repr

/-- One `(hook_type, session_id)` slot of the registry. -/
structure RegSlot where
  deployment : List Hook
  session : List Hook
deriving Repr

/-- The effect of `register` on an already descending-sorted list:
`target.append(hook); target.sort(key=priority, reverse=True)` with
Python's stable sort inserts the new hook after every existing hook of
priority ≥ its own. -/
def insertDesc (h : Hook) (l : List Hook) : List Hook :=
  l.takeWhile (fun x => h.priority ≤ x.priority) ++
    h :: l.dropWhile (fun x => h.priority ≤ x.priority)

/-- Registry operations touching one slot (a `register` that raises
`DuplicateHookError` leaves the lists unchanged; `deregister` filters by
name; `clear_session` drops the session list). -/
inductive RegOp
  | registerDeployment (h : Hook)
  | registerSession (h : Hook)
  | deregisterDeployment (n : String)
  | deregisterSession (n : String)
  | clearSession
deriving Repr

def applyOp (s : RegSlot) : RegOp → RegSlot
  | .registerDeployment h =>
    if s.deployment.any (fun x => x.name == h.name) then s
    else { s with deployment := insertDesc h s.deployment }
  | .registerSession h =>
    if s.session.any (fun x => x.name == h.name) then s
    else { s with session := insertDesc h s.session }
  | .deregisterDeployment n =>
    { s with deployment := s.deployment.filter (fun x => !(x.name == n)) }
  | .deregisterSession n =>
    { s with session := s.session.filter (fun x => !(x.name == n)) }
  | .clearSession => { s with session := [] }

/-- A registry slot reached from empty by a sequence of operations. -/
def runOps (ops : List RegOp) : RegSlot :=
  ops.foldl applyOp ⟨[], []⟩

/-- `_merge_by_priority`, generic in the priority projection: take from
`deployment` while its head's priority is ≥ the session head's. -/
def merge_by_priority {α : Type} (prio : α → Nat) :
    List α → List α → List α
  | [], s => s
  | d :: ds, [] => d :: ds
  | d :: ds, s :: ss =>
    if prio s ≤ prio d then d :: merge_by_priority prio ds (s :: ss)
    else s :: merge_by_priority prio (d :: ds) ss

/-- `get_chain` for one slot. -/
def get_chain (s : RegSlot) : List Hook :=
  merge_by_priority Hook.priority s.deployment s.session

/-- A hook tagged with its scope of origin (ghost instrumentation). -/
structure TaggedHook where
  isDeployment : Bool
  hook : Hook
deriving DecidableEq, Repr

/-- `get_chain` instrumented with scope tags. -/
def get_chain_tagged (s : RegSlot) : List TaggedHook :=
  merge_by_priority (fun th => th.hook.priority)
    (s.deployment.map (fun h => ⟨true, h⟩))
    (s.session.map (fun h => ⟨false, h⟩))

/-- The ordering contract of a chain: priorities are non-increasing, and
once a session-scoped hook appears at some priority, no deployment-scoped
hook of the same priority appears later (so every deployment hook precedes
every session hook of equal priority). -/
def ChainOrdered (l : List TaggedHook) : Prop :=
  l.Pairwise (fun x y => y.hook.priority ≤ x.hook.priority ∧
    (x.hook.priority = y.hook.priority → x.isDeployment = false →
      y.isDeployment = false))

/-- The sequence of hooks `HookExecutor.execute` actually fires: walking
the chain front to back, a hook is skipped unless `runs` it (the
enabled + predicate gate, which may also skip on a predicate exception),
and the walk stops after the first fired hook whose normalized result is
abort. -/
def executedHooks {α : Type} (runs aborts : α → Bool) : List α → List α
  | [] => []
  | h :: rest =>
    if runs h then
      if aborts h then [h] else h :: executedHooks runs aborts rest
    else executedHooks runs aborts rest

def SortedDesc (l : List Hook) : Prop :=
  l.Pairwise (fun x y => y.priority ≤ x.priority)

theorem sorted_dropWhile_lt (p : Nat) (l : List Hook) (hs : SortedDesc l) :
    ∀ y ∈ l.dropWhile (fun x => p ≤ x.priority), y.priority < p := by
  induction l with
  | nil => intro y hy; simp at hy
  | cons a t ih =>
    rw [SortedDesc, List.pairwise_cons] at hs
    intro y hy
    by_cases hpa : p ≤ a.priority
    · simp only [List.dropWhile_cons, decide_eq_true hpa, if_true] at hy
      exact ih hs.2 y hy
    · simp only [List.dropWhile_cons, decide_eq_false hpa, Bool.false_eq_true,
        if_false] at hy
      rcases List.mem_cons.mp hy with rfl | hy2
      · exact Nat.lt_of_not_le hpa
      · exact Nat.lt_of_le_of_lt (hs.1 y hy2) (Nat.lt_of_not_le hpa)

theorem insertDesc_sorted (h : Hook) (l : List Hook) (hs : SortedDesc l) :
    SortedDesc (insertDesc h l) := by
  unfold insertDesc SortedDesc
  rw [List.pairwise_append]
  refine ⟨hs.sublist (List.takeWhile_sublist _), ?_, ?_⟩
  · rw [List.pairwise_cons]
    exact ⟨fun b hb => Nat.le_of_lt (sorted_dropWhile_lt h.priority l hs b hb),
      hs.sublist (List.dropWhile_sublist _)⟩
  · intro a ha b hb
    have hap : h.priority ≤ a.priority := by
      have hta := List.mem_takeWhile_imp ha
      simpa using hta
    rcases List.mem_cons.mp hb with rfl | hb2
    · exact hap
    · exact Nat.le_trans
        (Nat.le_of_lt (sorted_dropWhile_lt h.priority l hs b hb2)) hap

theorem runOps_sorted (ops : List RegOp) :
    SortedDesc (runOps ops).deployment ∧ SortedDesc (runOps ops).session := by
  unfold runOps
  refine foldl_preserve
    (fun s : RegSlot => SortedDesc s.deployment ∧ SortedDesc s.session)
    (fun _ => True) applyOp ?_ ops ⟨[], []⟩
    ⟨List.Pairwise.nil, List.Pairwise.nil⟩ (fun _ _ => trivial)
  intro s op hInv _
  cases op with
  | registerDeployment h =>
    simp only [applyOp]
    split
    · exact hInv
    · exact ⟨insertDesc_sorted h s.deployment hInv.1, hInv.2⟩
  | registerSession h =>
    simp only [applyOp]
    split
    · exact hInv
    · exact ⟨hInv.1, insertDesc_sorted h s.session hInv.2⟩
  | deregisterDeployment n =>
    simp only [applyOp]
    exact ⟨hInv.1.sublist (List.filter_sublist _), hInv.2⟩
  | deregisterSession n =>
    simp only [applyOp]
    exact ⟨hInv.1, hInv.2.sublist (List.filter_sublist _)⟩
  | clearSession =>
    simp only [applyOp]
    exact ⟨hInv.1, List.Pairwise.nil⟩

theorem merge_nil_left {α : Type} (prio : α → Nat) (s : List α) :
    merge_by_priority prio [] s = s := by
  cases s <;> rw [merge_by_priority]

theorem merge_nil_right {α : Type} (prio : α → Nat) (d : α) (ds : List α) :
    merge_by_priority prio (d :: ds) [] = d :: ds := by
  rw [merge_by_priority]

theorem merge_cons_cons {α : Type} (prio : α → Nat) (d : α) (ds : List α)
    (s : α) (ss : List α) :
    merge_by_priority prio (d :: ds) (s :: ss) =
      if prio s ≤ prio d then d :: merge_by_priority prio ds (s :: ss)
      else s :: merge_by_priority prio (d :: ds) ss := by
  rw [merge_by_priority]

theorem mem_merge {α : Type} (prio : α → Nat) :
    ∀ (d s : List α), ∀ x ∈ merge_by_priority prio d s, x ∈ d ∨ x ∈ s := by
  intro d
  induction d with
  | nil => intro s x hx; rw [merge_nil_left] at hx; exact Or.inr hx
  | cons a ds ihd =>
    intro s
    induction s with
    | nil => intro x hx; rw [merge_nil_right] at hx; exact Or.inl hx
    | cons b ss ihs =>
      intro x hx
      rw [merge_cons_cons] at hx
      split at hx
      · rcases List.mem_cons.mp hx with rfl | hx2
        · exact Or.inl (List.mem_cons_self _ _)
        · rcases ihd (b :: ss) x hx2 with h | h
          · exact Or.inl (List.mem_cons_of_mem _ h)
          · exact Or.inr h
      · rcases List.mem_cons.mp hx with rfl | hx2
        · exact Or.inr (List.mem_cons_self _ _)
        · rcases ihs x hx2 with h | h
          · exact Or.inl h
          · exact Or.inr (List.mem_cons_of_mem _ h)

/-- Projecting the scope tags away from the tagged merge gives exactly
`_merge_by_priority` on the raw hook lists. -/
theorem merge_tagged_proj :
    ∀ (d s : List Hook),
      (merge_by_priority (fun th => th.hook.priority)
          (d.map (fun h => (⟨true, h⟩ : TaggedHook)))
          (s.map (fun h => (⟨false, h⟩ : TaggedHook)))).map TaggedHook.hook =
        merge_by_priority Hook.priority d s := by
  intro d
  induction d with
  | nil =>
    intro s
    rw [List.map_nil, merge_nil_left, merge_nil_left, List.map_map]
    exact map_fixed _ _ (fun a _ => rfl)
  | cons a ds ihd =>
    intro s
    induction s with
    | nil =>
      rw [List.map_nil, List.map_cons, merge_nil_right, merge_nil_right,
        ← List.map_cons, List.map_map]
      exact map_fixed _ _ (fun x _ => rfl)
    | cons b ss ihs =>
      rw [List.map_cons, List.map_cons, merge_cons_cons, merge_cons_cons]
      by_cases hp : b.priority ≤ a.priority
      · rw [if_pos hp, if_pos hp, List.map_cons]
        exact congrArg (fun t => a :: t) (ihd (b :: ss))
      · rw [if_neg hp, if_neg hp, List.map_cons]
        exact congrArg (fun t => b :: t) ihs

theorem merge_tagged_ordered :
    ∀ (d s : List TaggedHook),
      d.Pairwise (fun x y => y.hook.priority ≤ x.hook.priority) →
      s.Pairwise (fun x y => y.hook.priority ≤ x.hook.priority) →
      (∀ x ∈ d, x.isDeployment = true) →
      (∀ x ∈ s, x.isDeployment = false) →
      ChainOrdered (merge_by_priority (fun th => th.hook.priority) d s) := by
  intro d
  induction d with
  | nil =>
    intro s _ hs _ hst
    rw [merge_nil_left]
    unfold ChainOrdered
    refine hs.imp_of_mem ?_
    intro x y hx hy hxy
    exact ⟨hxy, fun _ _ => hst y hy⟩
  | cons a ds ihd =>
    intro s
    induction s with
    | nil =>
      intro hd _ hdt _
      rw [merge_nil_right]
      unfold ChainOrdered
      refine hd.imp_of_mem ?_
      intro x y hx hy hxy
      exact ⟨hxy, fun _ hfalse =>
        absurd (hdt x hx) (by rw [hfalse]; exact Bool.false_ne_true)⟩
    | cons b ss ihs =>
      intro hd hs hdt hst
      rw [merge_cons_cons]
      by_cases hp : b.hook.priority ≤ a.hook.priority
      · rw [if_pos hp]
        unfold ChainOrdered
        rw [List.pairwise_cons]
        constructor
        · intro y hy
          have hav : a.isDeployment = true := hdt a (List.mem_cons_self _ _)
          refine ⟨?_, fun _ hfalse =>
            absurd hav (by rw [hfalse]; exact Bool.false_ne_true)⟩
          rcases mem_merge _ ds (b :: ss) y hy with h | h
          · exact (List.pairwise_cons.mp hd).1 y h
          · rcases List.mem_cons.mp h with rfl | h2
            · exact hp
            · exact Nat.le_trans ((List.pairwise_cons.mp hs).1 y h2) hp
        · exact ihd (b :: ss) (List.pairwise_cons.mp hd).2 hs
            (fun x hx => hdt x (List.mem_cons_of_mem _ hx)) hst
      · rw [if_neg hp]
        unfold ChainOrdered
        rw [List.pairwise_cons]
        constructor
        · intro y hy
          rcases mem_merge _ (a :: ds) ss y hy with h | h
          · have hlt : y.hook.priority < b.hook.priority := by
              rcases List.mem_cons.mp h with rfl | h2
              · exact Nat.lt_of_not_le hp
              · exact Nat.lt_of_le_of_lt ((List.pairwise_cons.mp hd).1 y h2)
                  (Nat.lt_of_not_le hp)
            exact ⟨Nat.le_of_lt hlt,
              fun heq _ => absurd heq (Nat.ne_of_gt hlt)⟩
          · exact ⟨(List.pairwise_cons.mp hs).1 y h,
              fun _ _ => hst y (List.mem_cons_of_mem _ h)⟩
        · exact ihs hd (List.pairwise_cons.mp hs).2 hdt
            (fun x hx => hst x (List.mem_cons_of_mem _ hx))

theorem executedHooks_sublist {α : Type} (runs aborts : α → Bool) :
    ∀ l : List α, (executedHooks runs aborts l).Sublist l := by
  intro l
  induction l with
  | nil => exact List.Sublist.refl []
  | cons h rest ih =>
    simp only [executedHooks]
    split
    · split
      · exact (List.nil_sublist rest).cons₂ h
      · exact ih.cons₂ h
    · exact ih.cons h

/-- **C5.** For every registry state reachable by any interleaving of
register/deregister/clear operations in the deployment and session scopes,
the chain `get_chain` returns is non-increasing in priority with every
deployment-scoped hook preceding every session-scoped hook of equal
priority — and so is the sequence of hooks `HookExecutor.execute` actually
invokes (any enabled/predicate gate, any abort point).  The tagged chain
projects to the untagged `get_chain` result. -/
theorem c5_hook_chain_priority_order (ops : List RegOp)
    (runs aborts : TaggedHook → Bool) :
    ChainOrdered (get_chain_tagged (runOps ops)) ∧
      ChainOrdered (executedHooks runs aborts (get_chain_tagged (runOps ops))) ∧
      (get_chain_tagged (runOps ops)).map TaggedHook.hook =
        get_chain (runOps ops) := by
  obtain ⟨hd, hs⟩ := runOps_sorted ops
  have hmap : ∀ (l : List Hook) (b : Bool), SortedDesc l →
      (l.map (fun h => (⟨b, h⟩ : TaggedHook))).Pairwise
        (fun x y => y.hook.priority ≤ x.hook.priority) := by
    intro l b hl
    exact hl.map _ (fun x y hxy => hxy)
  have htag : ChainOrdered (get_chain_tagged (runOps ops)) := by
    unfold get_chain_tagged
    apply merge_tagged_ordered
    · exact hmap _ true hd
    · exact hmap _ false hs
    · intro x hx
      rw [List.mem_map] at hx
      obtain ⟨h, _, rfl⟩ := hx
      rfl
    · intro x hx
      rw [List.mem_map] at hx
      obtain ⟨h, _, rfl⟩ := hx
      rfl
  refine ⟨htag, ?_, ?_⟩
  · exact htag.sublist (executedHooks_sublist runs aborts _)
  · unfold get_chain_tagged get_chain
    exact merge_tagged_proj _ _

end VCP
